import Mathlib

/-!
Verification of the 2D wavetable interpolation engine
(ext/mb/sound/fast_wavetable/fast_wavetable.c).

The C code is shallowly embedded: C `double` values become rationals,
`ssize_t` values become integers, a row of `float` samples becomes a
`List ℚ`, and the flattened 2D table becomes a `List ℚ` indexed through
explicit offsets, exactly as the C code indexes through pointers.
A computation that the C code would perform as undefined behaviour
(out-of-bounds read, division/modulo by zero) is modelled explicitly by
the `CResult.crash` outcome, and a raised Ruby exception by
`CResult.err`.
-/

namespace FastWavetable

/-- The four boundary policies of `enum wrapping_mode`. -/
inductive Mode : Type where
  | wrap
  | bounce
  | zero
  | clamp
deriving DecidableEq

/-- The two interpolation kernels selected by the `lookup` symbol in
`ruby_wavetable_lookup` (`:linear` or `:cubic`). -/
inductive Kernel : Type where
  | linear
  | cubic
deriving DecidableEq

/-- Outcome of running a piece of the C code: a normal value, a raised
Ruby exception (`err`), or C undefined behaviour (`crash`): an
out-of-bounds memory read or a modulo by zero. -/
inductive CResult (α : Type) : Type where
  | ok (val : α)
  | err
  | crash
deriving DecidableEq

/-- Sequencing of embedded C computations: exceptions and undefined
behaviour propagate. -/
def CResult.bind {α β : Type} : CResult α → (α → CResult β) → CResult β
  | .ok a, f => f a
  | .err, _ => .err
  | .crash, _ => .crash

/-- A C memory read `row[idx]` relative to a row base pointer backed by
`row.length` valid samples: defined only for `0 ≤ idx < row.length`. -/
def readRow (row : List ℚ) (idx : ℤ) : CResult ℚ :=
  if 0 ≤ idx ∧ idx < (row.length : ℤ) then .ok (row.getD idx.toNat 0) else .crash

/-- C `%` on `ssize_t` (truncated toward zero); modulo by zero is
undefined behaviour. -/
def cMod (a b : ℤ) : CResult ℤ :=
  if b = 0 then .crash else .ok (Int.tmod a b)

/-- Embedding of `fetch_wrap`: conditionally shift a negative index up by
`columns` after a truncated modulo, then reduce again if still at or
above `columns`. -/
def fetch_wrap (row : List ℚ) (columns idx : ℤ) : CResult ℚ :=
  (if idx < 0 then (cMod idx columns).bind (fun m => .ok (m + columns))
   else .ok idx).bind fun i1 =>
  (if i1 ≥ columns then cMod i1 columns else .ok i1).bind fun i2 =>
  readRow row i2

/-- Embedding of `fetch_bounce`: reflect the index off both ends with
period `columns * 2 - 2`, using `llabs` and a truncated modulo. -/
def fetch_bounce (row : List ℚ) (columns idx : ℤ) : CResult ℚ :=
  if columns ≤ 1 then readRow row 0
  else
    let looplen := columns * 2 - 2
    let i1 := Int.tmod |idx| looplen
    let i2 := if i1 > columns - 1 then looplen - i1 else i1
    readRow row i2

/-- Embedding of `fetch_clamp`: saturate the index to `[0, columns - 1]`. -/
def fetch_clamp (row : List ℚ) (columns idx : ℤ) : CResult ℚ :=
  if idx < 0 then readRow row 0
  else if idx ≥ columns then readRow row (columns - 1)
  else readRow row idx

/-- Embedding of `fetch_zero`: out-of-range indices yield sample `0`. -/
def fetch_zero (row : List ℚ) (columns idx : ℤ) : CResult ℚ :=
  if idx < 0 ∨ idx ≥ columns then .ok 0 else readRow row idx

/-- Embedding of `fetch_oob`: dispatch on the wrapping mode. -/
def fetch_oob (row : List ℚ) (columns idx : ℤ) (mode : Mode) : CResult ℚ :=
  match mode with
  | .wrap => fetch_wrap row columns idx
  | .bounce => fetch_bounce row columns idx
  | .clamp => fetch_clamp row columns idx
  | .zero => fetch_zero row columns idx

/-- Embedding of `ruby_fetch_oob`: `columns` is the final-dimension
length of the array; when it is zero the function returns `nil`
(modelled `ok none`) before any fetch. -/
def ruby_fetch_oob (row : List ℚ) (idx : ℤ) (mode : Mode) : CResult (Option ℚ) :=
  if row.length = 0 then .ok none
  else (fetch_oob row (row.length : ℤ) idx mode).bind fun v => .ok (some v)

/-- Embedding of `cubic_interp`: Catmull-Rom-style cubic through four
evenly spaced samples, evaluated at `blend`. -/
def cubic_interp (y_1 y0 y1 y2 blend : ℚ) : ℚ :=
  let d0 := (y1 - y_1) / 2
  let d1 := (y2 - y0) / 2
  let a := 2 * (y0 - y1) + d0 + d1
  let b := 3 * (y1 - y0) - 2 * d0 - d1
  let c := d0
  let d := y0
  a * blend * blend * blend + b * blend * blend + c * blend + d

/-- Embedding of `ruby_cubic_coeffs`: the `(a, b, c, d)` coefficient
tuple computed from the same four samples. -/
def cubic_coeffs (y_1 y0 y1 y2 : ℚ) : ℚ × ℚ × ℚ × ℚ :=
  let d0 := (y1 - y_1) / 2
  let d1 := (y2 - y0) / 2
  let a := 2 * (y0 - y1) + d0 + d1
  let b := 3 * (y1 - y0) - 2 * d0 - d1
  let c := d0
  let d := y0
  (a, b, c, d)

/-- C truncation toward zero, as performed by `fmod`'s implicit
quotient for a divisor of 1. -/
def ctrunc (x : ℚ) : ℤ :=
  if 0 ≤ x then ⌊x⌋ else ⌈x⌉

/-- C `fmod(x, 1)`: `x` minus its truncation toward zero. -/
def fmod1 (x : ℚ) : ℚ := x - ctrunc x

/-- The morph-coordinate normalization
`number >= 0 ? fmod(number, 1) : fmod(number, 1) + 1` shared by
`outer_linear` and `outer_cubic`. -/
def normNumber (x : ℚ) : ℚ :=
  if 0 ≤ x then fmod1 x else fmod1 x + 1

/-- The fractional row position `frow` of `outer_linear`/`outer_cubic`. -/
def frowOf (rows : ℕ) (number : ℚ) : ℚ :=
  normNumber number * (rows : ℚ)

/-- The row blend weight `frow - row1` of `outer_linear`/`outer_cubic`
(for `rows ≠ 0`, where the `%` is defined). -/
def rowBlend (rows : ℕ) (number : ℚ) : ℚ :=
  frowOf rows number - ((Int.tmod ⌊frowOf rows number⌋ (rows : ℤ) : ℤ) : ℚ)

/-- Embedding of `outer_linear`: bilinear 2D lookup. -/
def outer_linear (table : List ℚ) (rows columns : ℕ) (number phase : ℚ)
    (mode : Mode) : CResult ℚ :=
  let frow := frowOf rows number
  (cMod ⌊frow⌋ (rows : ℤ)).bind fun row1 =>
  (cMod (row1 + 1) (rows : ℤ)).bind fun row2 =>
  let offset1 := (columns : ℤ) * row1
  let offset2 := (columns : ℤ) * row2
  let rowratio := frow - (row1 : ℚ)
  let fcol := phase * (columns : ℚ)
  let col1 := ⌊fcol⌋
  let col2 := col1 + 1
  let colratio := fcol - (col1 : ℚ)
  (fetch_oob (table.drop offset1.toNat) (columns : ℤ) col1 mode).bind fun val1l =>
  (fetch_oob (table.drop offset1.toNat) (columns : ℤ) col2 mode).bind fun val1r =>
  (fetch_oob (table.drop offset2.toNat) (columns : ℤ) col1 mode).bind fun val2l =>
  (fetch_oob (table.drop offset2.toNat) (columns : ℤ) col2 mode).bind fun val2r =>
  let valtop := val1r * colratio + val1l * (1 - colratio)
  let valbot := val2r * colratio + val2l * (1 - colratio)
  .ok (valbot * rowratio + valtop * (1 - rowratio))

/-- Embedding of `outer_cubic`: cubic along the phase axis (4-point
stencil per row), linear across the two rows. -/
def outer_cubic (table : List ℚ) (rows columns : ℕ) (number phase : ℚ)
    (mode : Mode) : CResult ℚ :=
  let frow := frowOf rows number
  (cMod ⌊frow⌋ (rows : ℤ)).bind fun row1 =>
  (cMod (row1 + 1) (rows : ℤ)).bind fun row2 =>
  let offset1 := (columns : ℤ) * row1
  let offset2 := (columns : ℤ) * row2
  let rowratio := frow - (row1 : ℚ)
  let fcol := phase * (columns : ℚ)
  let col1 := ⌊fcol⌋
  let colratio := fcol - (col1 : ℚ)
  (fetch_oob (table.drop offset1.toNat) (columns : ℤ) (col1 - 1) mode).bind fun a1 =>
  (fetch_oob (table.drop offset1.toNat) (columns : ℤ) col1 mode).bind fun a2 =>
  (fetch_oob (table.drop offset1.toNat) (columns : ℤ) (col1 + 1) mode).bind fun a3 =>
  (fetch_oob (table.drop offset1.toNat) (columns : ℤ) (col1 + 2) mode).bind fun a4 =>
  (fetch_oob (table.drop offset2.toNat) (columns : ℤ) (col1 - 1) mode).bind fun b1 =>
  (fetch_oob (table.drop offset2.toNat) (columns : ℤ) col1 mode).bind fun b2 =>
  (fetch_oob (table.drop offset2.toNat) (columns : ℤ) (col1 + 1) mode).bind fun b3 =>
  (fetch_oob (table.drop offset2.toNat) (columns : ℤ) (col1 + 2) mode).bind fun b4 =>
  let valtop := cubic_interp a1 a2 a3 a4 colratio
  let valbot := cubic_interp b1 b2 b3 b4 colratio
  .ok (valbot * rowratio + valtop * (1 - rowratio))

/-- Kernel dispatch of the single-point lookup, as selected by the
`lookup` symbol in `ruby_wavetable_lookup` (and by the choice between
the `outer_linear` and `outer_cubic` entry points). -/
def lookupK (table : List ℚ) (rows columns : ℕ) (number phase : ℚ)
    (k : Kernel) (mode : Mode) : CResult ℚ :=
  match k with
  | .linear => outer_linear table rows columns number phase mode
  | .cubic => outer_cubic table rows columns number phase mode

/-- The element-wise loop of `ruby_wavetable_lookup`: each phase element
is replaced by the single-point lookup at the corresponding number. -/
def lookupList (table : List ℚ) (rows columns : ℕ) (k : Kernel) (mode : Mode) :
    List ℚ → List ℚ → CResult (List ℚ)
  | [], [] => .ok []
  | n :: ns, p :: ps =>
    match lookupK table rows columns n p k mode with
    | .ok v =>
      match lookupList table rows columns k mode ns ps with
      | .ok rest => .ok (v :: rest)
      | .err => .err
      | .crash => .crash
    | .err => .err
    | .crash => .crash
  | _, _ => .err

/-- Embedding of `ruby_wavetable_lookup` (batch lookup): the length
check precedes the loop; a mismatch raises before any element is
written. -/
def wavetable_lookup (table : List ℚ) (rows columns : ℕ)
    (numbers phases : List ℚ) (k : Kernel) (mode : Mode) : CResult (List ℚ) :=
  if numbers.length = phases.length then
    lookupList table rows columns k mode numbers phases
  else .err

/-- The reflected index described by the spec for the `Bounce` policy:
reduce into `[0, period)` with a sign-correct (Euclidean) modulo, then
fold values at or above `columns` via `period - index`. -/
def bounceIndexSpec (columns idx : ℤ) : ℤ :=
  let p := 2 * columns - 2
  let j := idx % p
  if columns ≤ j then p - j else j

lemma neg_tmod_arg (a b : ℤ) : (-a).tmod b = -(a.tmod b) := by
  rw [Int.tmod_def, Int.tmod_def, Int.neg_tdiv]
  ring

lemma tmod_eq_cases (a b : ℤ) (hb : 0 < b) :
    a.tmod b = if 0 ≤ a then a % b else -((-a) % b) := by
  split
  · exact Int.tmod_eq_emod (by assumption) (by omega)
  · have h := neg_tmod_arg (-a) b
    rw [neg_neg] at h
    rw [h, Int.tmod_eq_emod (by omega) (by omega)]

lemma emod_add_same (a c : ℤ) (_hc : 0 < c) : (a % c + c) % c = a % c := by
  rw [show a % c + c = a % c + c * 1 by ring, Int.add_mul_emod_self_left,
    Int.emod_emod_of_dvd a dvd_rfl]

lemma neg_emod_cases (a c : ℤ) (hc : 0 < c) :
    (-a) % c = if a % c = 0 then 0 else c - a % c := by
  have hd := Int.emod_add_ediv a c
  have h0 : 0 ≤ a % c := Int.emod_nonneg a (by omega)
  have h1 : a % c < c := Int.emod_lt_of_pos a hc
  split
  · rename_i hz
    have ha : -a = c * (-(a / c)) := by rw [mul_neg]; omega
    rw [ha, Int.mul_emod_right]
  · rename_i hz
    have ha : -a = (c - a % c) + c * (-(a / c) - 1) := by
      have hm : c * (-(a / c) - 1) = -(c * (a / c)) - c := by ring
      rw [hm]; omega
    rw [ha, Int.add_mul_emod_self_left, Int.emod_eq_of_lt (by omega) (by omega)]

/-- C5: for `columns ≥ 1` and a row backing exactly `columns` samples,
`fetch_wrap` returns the sample at `((idx % columns) + columns) % columns`
(C truncated `%`), which is the canonical non-negative residue of `idx`
modulo `columns`, regardless of the sign of `idx`. -/
theorem claim_C5 (row : List ℚ) (columns idx : ℤ)
    (h1 : 1 ≤ columns) (h2 : (row.length : ℤ) = columns) :
    fetch_wrap row columns idx =
      readRow row ((Int.tmod idx columns + columns).tmod columns) ∧
    (Int.tmod idx columns + columns).tmod columns = idx % columns := by
  have hc0 : columns ≠ 0 := by omega
  have hcpos : (0 : ℤ) < columns := by omega
  have hm0 : 0 ≤ idx % columns := Int.emod_nonneg idx hc0
  have hm1 : idx % columns < columns := Int.emod_lt_of_pos idx hcpos
  have hspec : (Int.tmod idx columns + columns).tmod columns = idx % columns := by
    rcases le_or_lt 0 idx with hpos | hneg
    · rw [Int.tmod_eq_emod hpos (by omega)]
      rw [Int.tmod_eq_emod (by omega) (by omega)]
      exact emod_add_same idx columns hcpos
    · rw [tmod_eq_cases idx columns hcpos, if_neg (by omega)]
      have hE0 : 0 ≤ (-idx) % columns := Int.emod_nonneg (-idx) hc0
      have hE1 : (-idx) % columns < columns := Int.emod_lt_of_pos (-idx) hcpos
      rw [Int.tmod_eq_emod (by omega) (by omega)]
      have hneg1 : idx % columns = if (-idx) % columns = 0 then 0
          else columns - (-idx) % columns := by
        have h := neg_emod_cases (-idx) columns hcpos
        rw [neg_neg] at h
        exact h
      by_cases hz : (-idx) % columns = 0
      · rw [hz, hneg1, if_pos hz]
        simp [Int.emod_self]
      · rw [hneg1, if_neg hz,
          Int.emod_eq_of_lt (by omega) (by omega)]
        ring
  refine ⟨?_, hspec⟩
  rw [hspec]
  rcases lt_or_le idx 0 with hneg | hpos
  · have ht : Int.tmod idx columns = -((-idx) % columns) := by
      rw [tmod_eq_cases idx columns hcpos, if_neg (by omega)]
    have hE0 : 0 ≤ (-idx) % columns := Int.emod_nonneg (-idx) hc0
    have hE1 : (-idx) % columns < columns := Int.emod_lt_of_pos (-idx) hcpos
    have hneg1 : idx % columns = if (-idx) % columns = 0 then 0
        else columns - (-idx) % columns := by
      have h := neg_emod_cases (-idx) columns hcpos
      rw [neg_neg] at h
      exact h
    simp only [fetch_wrap, cMod, if_neg hc0, if_pos hneg, CResult.bind, ht]
    by_cases hz : (-idx) % columns = 0
    · rw [if_pos (by omega : -((-idx) % columns) + columns ≥ columns)]
      simp only [if_neg hc0, CResult.bind]
      rw [hz, hneg1, if_pos hz]
      congr 1
      rw [Int.tmod_eq_emod (by omega) (by omega)]
      simp [Int.emod_self]
    · rw [if_neg (by omega : ¬ -((-idx) % columns) + columns ≥ columns)]
      simp only [CResult.bind]
      rw [hneg1, if_neg hz]
      exact congrArg (readRow row) (by ring)
  · simp only [fetch_wrap, cMod, if_neg (not_lt.mpr hpos), CResult.bind]
    by_cases hge : idx ≥ columns
    · rw [if_pos hge]
      simp only [if_neg hc0, CResult.bind]
      rw [Int.tmod_eq_emod hpos (by omega)]
    · rw [if_neg hge]
      simp only [CResult.bind]
      congr 1
      rw [Int.emod_eq_of_lt (by omega) (by omega)]

/-- C5 witness: concrete instance `row = [1,2,3,4]`, `idx = -1`. -/
theorem claim_C5_witness :
    ((1 : ℤ) ≤ 4 ∧ (([(1 : ℚ), 2, 3, 4].length : ℤ) = 4)) ∧
    (fetch_wrap [(1 : ℚ), 2, 3, 4] 4 (-1) =
      readRow [(1 : ℚ), 2, 3, 4] ((Int.tmod (-1) 4 + 4).tmod 4) ∧
    (Int.tmod (-1) 4 + 4).tmod 4 = (-1 : ℤ) % 4) :=
  ⟨⟨by decide, by decide⟩, claim_C5 [1, 2, 3, 4] 4 (-1) (by decide) (by decide)⟩

/-- C4: for `columns ≥ 1` and a row backing exactly `columns` samples,
`fetch_bounce` returns `row[0]` when `columns = 1` and otherwise the
sample at the sign-correct-modulo-then-fold index of the spec; in
particular on `row = [1,2,3,4]`, indices `-1` and `1` both fetch `2`. -/
theorem claim_C4 (row : List ℚ) (columns idx : ℤ)
    (h1 : 1 ≤ columns) (h2 : (row.length : ℤ) = columns) :
    (fetch_bounce row columns idx =
      if columns = 1 then readRow row 0
      else readRow row (bounceIndexSpec columns idx)) ∧
    fetch_bounce [1, 2, 3, 4] 4 (-1) = .ok 2 ∧
    fetch_bounce [1, 2, 3, 4] 4 1 = .ok 2 := by
  refine ⟨?_, by decide, by decide⟩
  by_cases hone : columns = 1
  · subst hone
    simp [fetch_bounce]
  · have hc2 : 2 ≤ columns := by omega
    rw [if_neg hone]
    simp only [fetch_bounce, if_neg (by omega : ¬ columns ≤ 1), bounceIndexSpec]
    have hpeq : columns * 2 - 2 = 2 * columns - 2 := by ring
    rw [hpeq]
    set p := 2 * columns - 2 with hp
    have hppos : (0 : ℤ) < p := by omega
    have hb0 : 0 ≤ idx % p := Int.emod_nonneg idx (by omega)
    have hb1 : idx % p < p := Int.emod_lt_of_pos idx hppos
    have habs : Int.tmod |idx| p = |idx| % p :=
      Int.tmod_eq_emod (abs_nonneg idx) (by omega)
    rw [habs]
    rcases abs_cases idx with ⟨heq, _⟩ | ⟨heq, hidxneg⟩
    · rw [heq]
      split_ifs <;> (congr 1) <;> omega
    · rw [heq, neg_emod_cases idx p hppos]
      by_cases hz : idx % p = 0
      · rw [if_pos hz, hz]
        split_ifs <;> (congr 1) <;> omega
      · rw [if_neg hz]
        split_ifs <;> (congr 1) <;> omega

/-- C4 witness: concrete instance `row = [1,2,3,4]`, `idx = -1`. -/
theorem claim_C4_witness :
    ((1 : ℤ) ≤ 4 ∧ (([(1 : ℚ), 2, 3, 4].length : ℤ) = 4)) ∧
    ((fetch_bounce [(1 : ℚ), 2, 3, 4] 4 (-1) =
      if (4 : ℤ) = 1 then readRow [(1 : ℚ), 2, 3, 4] 0
      else readRow [(1 : ℚ), 2, 3, 4] (bounceIndexSpec 4 (-1))) ∧
    fetch_bounce [1, 2, 3, 4] 4 (-1) = .ok 2 ∧
    fetch_bounce [1, 2, 3, 4] 4 1 = .ok 2) :=
  ⟨⟨by decide, by decide⟩, claim_C4 [1, 2, 3, 4] 4 (-1) (by decide) (by decide)⟩

/-- C10: on an in-range index `0 ≤ idx < columns` every one of the four
boundary policies returns exactly the sample `row[idx]`; the policies
only differ out of range. -/
theorem claim_C10 (row : List ℚ) (columns idx : ℤ) (mode : Mode)
    (h1 : 0 ≤ idx) (h2 : idx < columns) (h3 : (row.length : ℤ) = columns) :
    fetch_oob row columns idx mode = readRow row idx := by
  cases mode
  case wrap =>
    simp only [fetch_oob, fetch_wrap, if_neg (not_lt.mpr h1),
      if_neg (not_le.mpr h2), CResult.bind]
  case bounce =>
    simp only [fetch_oob, fetch_bounce]
    by_cases hcol : columns ≤ 1
    · have h0 : idx = 0 := by omega
      rw [if_pos hcol, h0]
    · rw [if_neg hcol]
      have ht : Int.tmod |idx| (columns * 2 - 2) = idx := by
        rw [abs_of_nonneg h1]
        exact Int.tmod_eq_of_lt h1 (by omega)
      simp only [ht, if_neg (by omega : ¬ idx > columns - 1)]
  case clamp =>
    simp only [fetch_oob, fetch_clamp, if_neg (not_lt.mpr h1),
      if_neg (not_le.mpr h2)]
  case zero =>
    simp only [fetch_oob, fetch_zero,
      if_neg (by omega : ¬ (idx < 0 ∨ idx ≥ columns))]

/-- C10 witness: concrete in-range instance `row = [1,2,3,4]`,
`idx = 2`, `Bounce` policy. -/
theorem claim_C10_witness :
    ((0 : ℤ) ≤ 2 ∧ (2 : ℤ) < 4 ∧ (([(1 : ℚ), 2, 3, 4].length : ℤ) = 4)) ∧
    fetch_oob [(1 : ℚ), 2, 3, 4] 4 2 Mode.bounce = readRow [(1 : ℚ), 2, 3, 4] 2 :=
  ⟨⟨by decide, by decide, by decide⟩,
    claim_C10 [1, 2, 3, 4] 4 2 Mode.bounce (by decide) (by decide) (by decide)⟩

lemma normNumber_nonneg (x : ℚ) : 0 ≤ normNumber x := by
  unfold normNumber fmod1 ctrunc
  split_ifs with hx
  · have h := Int.floor_le x
    linarith
  · have h := Int.ceil_lt_add_one x
    linarith

lemma normNumber_le_one (x : ℚ) : normNumber x ≤ 1 := by
  unfold normNumber fmod1 ctrunc
  split_ifs with hx
  · have h := Int.lt_floor_add_one x
    linarith
  · have h := Int.le_ceil x
    linarith

lemma normNumber_eq_one_iff (x : ℚ) :
    normNumber x = 1 ↔ x < 0 ∧ ∃ n : ℤ, x = (n : ℚ) := by
  unfold normNumber fmod1 ctrunc
  split_ifs with hx
  · constructor
    · intro h
      have := Int.lt_floor_add_one x
      exfalso
      linarith
    · rintro ⟨hneg, -⟩
      linarith
  · constructor
    · intro h
      exact ⟨by linarith, ⌈x⌉, by linarith⟩
    · rintro ⟨-, n, rfl⟩
      rw [Int.ceil_intCast]
      ring

lemma rowBlend_bounds (rows : ℕ) (x : ℚ) (hrows : 1 ≤ rows)
    (hx : normNumber x < 1) : 0 ≤ rowBlend rows x ∧ rowBlend rows x < 1 := by
  have h0 := normNumber_nonneg x
  have hrpos : (0 : ℚ) < (rows : ℚ) := by
    have : (1 : ℚ) ≤ (rows : ℚ) := by exact_mod_cast hrows
    linarith
  unfold rowBlend frowOf
  set f := normNumber x * (rows : ℚ) with hf
  have hf0 : 0 ≤ f := by positivity
  have hflt : f < (rows : ℚ) := by nlinarith
  have hfl0 : 0 ≤ ⌊f⌋ := Int.floor_nonneg.mpr hf0
  have hflr : ⌊f⌋ < ((rows : ℕ) : ℤ) := by
    rw [Int.floor_lt]
    push_cast
    exact hflt
  rw [Int.tmod_eq_of_lt hfl0 hflr]
  have hle := Int.floor_le f
  have hlt := Int.lt_floor_add_one f
  constructor
  · linarith
  · linarith

/-- C2 counterexample: at `number = -1` the normalization
`fmod(number,1) + 1` yields exactly `1`, not a value in `[0,1)`, and
with `rows = 2` the row blend weight `frow - row1` is `2`, not in
`[0,1)`. -/
theorem claim_C2_counterexample :
    normNumber (-1) = 1 ∧ ¬ normNumber (-1) < 1 ∧
    rowBlend 2 (-1) = 2 ∧ ¬ rowBlend 2 (-1) < 1 := by
  have h1 : normNumber (-1) = 1 := by
    norm_num [normNumber, fmod1, ctrunc, Int.ceil_neg, Int.ceil_one]
  have h2 : rowBlend 2 (-1) = 2 := by
    norm_num [rowBlend, frowOf, normNumber, fmod1, ctrunc, Int.ceil_neg,
      Int.ceil_one, Int.tmod_self]
  refine ⟨h1, by rw [h1]; norm_num, h2, by rw [h2]; norm_num⟩

/-- C2 (amended): the normalization always lands in the closed interval
`[0,1]`; it equals `1` exactly when `number` is a negative integer, and
lies in `[0,1)` otherwise; whenever it lies in `[0,1)`, the row blend
weight `frow - row1` lies in `[0,1)` for any `rows ≥ 1`. -/
theorem claim_C2_amended (x : ℚ) (rows : ℕ) (hrows : 1 ≤ rows) :
    0 ≤ normNumber x ∧ normNumber x ≤ 1 ∧
    (normNumber x = 1 ↔ x < 0 ∧ ∃ n : ℤ, x = (n : ℚ)) ∧
    (normNumber x < 1 →
      0 ≤ rowBlend rows x ∧ rowBlend rows x < 1) :=
  ⟨normNumber_nonneg x, normNumber_le_one x, normNumber_eq_one_iff x,
    fun hx => rowBlend_bounds rows x hrows hx⟩

/-- C2 witness: concrete instance `x = -1/2`, `rows = 2`. -/
theorem claim_C2_witness :
    (1 ≤ 2) ∧
    (0 ≤ normNumber (-1/2) ∧ normNumber (-1/2) ≤ 1 ∧
    (normNumber (-1/2) = 1 ↔ (-1/2 : ℚ) < 0 ∧ ∃ n : ℤ, (-1/2 : ℚ) = (n : ℚ)) ∧
    (normNumber (-1/2) < 1 →
      0 ≤ rowBlend 2 (-1/2) ∧ rowBlend 2 (-1/2) < 1)) :=
  ⟨by decide, claim_C2_amended (-1/2) 2 (by decide)⟩

/-- C6: `cubic_interp` evaluates the cubic `a t³ + b t² + c t + d` whose
coefficients are the Catmull-Rom values stated in the spec, built from
the central-difference tangents; `cubic_coeffs` returns exactly that
`(a, b, c, d)` tuple; and the cubic interpolates the two middle samples
at `t = 0` and `t = 1`. -/
theorem claim_C6 (y_1 y0 y1 y2 blend : ℚ) :
    cubic_coeffs y_1 y0 y1 y2 =
      (2 * (y0 - y1) + (y1 - y_1) / 2 + (y2 - y0) / 2,
       3 * (y1 - y0) - 2 * ((y1 - y_1) / 2) - (y2 - y0) / 2,
       (y1 - y_1) / 2, y0) ∧
    cubic_interp y_1 y0 y1 y2 blend =
      (2 * (y0 - y1) + (y1 - y_1) / 2 + (y2 - y0) / 2) * blend ^ 3 +
        (3 * (y1 - y0) - 2 * ((y1 - y_1) / 2) - (y2 - y0) / 2) * blend ^ 2 +
        ((y1 - y_1) / 2) * blend + y0 ∧
    cubic_interp y_1 y0 y1 y2 0 = y0 ∧
    cubic_interp y_1 y0 y1 y2 1 = y1 := by
  refine ⟨rfl, ?_, ?_, ?_⟩ <;> (unfold cubic_interp; ring)

lemma normNumber_add_one (x : ℚ) (h : x ≠ -1) :
    normNumber (x + 1) = normNumber x := by
  unfold normNumber fmod1 ctrunc
  rcases le_or_lt 0 x with hx | hx
  · rw [if_pos hx, if_pos (by linarith), if_pos (by linarith), if_pos hx,
      Int.floor_add_one]
    push_cast
    ring
  · rcases le_or_lt 0 (x + 1) with hx1 | hx1
    · have hxlt : -1 < x := lt_of_le_of_ne (by linarith) (Ne.symm h)
      have hfl : ⌊x + 1⌋ = 0 :=
        Int.floor_eq_zero_iff.mpr (Set.mem_Ico.mpr ⟨hx1, by linarith⟩)
      have hcl : ⌈x⌉ = 0 :=
        Int.ceil_eq_zero_iff.mpr (Set.mem_Ioc.mpr ⟨hxlt, le_of_lt hx⟩)
      rw [if_pos hx1, if_pos hx1, if_neg (not_le.mpr hx), if_neg (not_le.mpr hx),
        hfl, hcl]
      push_cast
      ring
    · rw [if_neg (not_le.mpr hx1), if_neg (not_le.mpr hx1),
        if_neg (not_le.mpr hx), if_neg (not_le.mpr hx), Int.ceil_add_one]
      push_cast
      ring

/-- C7 counterexample: on the table `[[0],[1]]` (rows = 2, columns = 1)
with the linear kernel and `Wrap` policy, the lookup at
`number = -1 + 1 = 0` yields `0` while the lookup at `number = -1`
yields `2`: the morph axis is not toroidal at `number = -1`. -/
theorem claim_C7_counterexample :
    lookupK [0, 1] 2 1 ((-1 : ℚ) + 1) 0 Kernel.linear Mode.wrap ≠
      lookupK [0, 1] 2 1 (-1 : ℚ) 0 Kernel.linear Mode.wrap := by
  have h1 : lookupK [0, 1] 2 1 ((-1 : ℚ) + 1) 0 Kernel.linear Mode.wrap =
      .ok 0 := by
    norm_num [lookupK, outer_linear, frowOf, normNumber, fmod1, ctrunc, cMod,
      fetch_oob, fetch_wrap, readRow, CResult.bind, Int.tmod_self,
      Int.tmod_one, Int.tmod_eq_of_lt]
  have h2 : lookupK [0, 1] 2 1 (-1 : ℚ) 0 Kernel.linear Mode.wrap =
      .ok 2 := by
    norm_num [lookupK, outer_linear, frowOf, normNumber, fmod1, ctrunc, cMod,
      fetch_oob, fetch_wrap, readRow, CResult.bind, Int.ceil_neg, Int.ceil_one,
      Int.tmod_self, Int.tmod_one, Int.tmod_eq_of_lt]
  rw [h1, h2]
  intro hc
  injection hc with hval
  norm_num at hval

/-- C7 (amended): for every `number ≠ -1`, every table, kernel and
policy, the single-point lookup at `number + 1` equals the lookup at
`number`; at `number = -1` the normalization jumps from `1` to `0` and
the equality can fail. -/
theorem claim_C7_amended (table : List ℚ) (rows columns : ℕ)
    (number phase : ℚ) (k : Kernel) (mode : Mode) (h : number ≠ -1) :
    lookupK table rows columns (number + 1) phase k mode =
      lookupK table rows columns number phase k mode := by
  have key := normNumber_add_one number h
  cases k <;> simp only [lookupK, outer_linear, outer_cubic, frowOf, key]

/-- C7 witness: concrete instance `number = 1/2` on the table
`[[0],[1]]`. -/
theorem claim_C7_witness :
    ((1/2 : ℚ) ≠ -1) ∧
    lookupK [0, 1] 2 1 ((1/2 : ℚ) + 1) 0 Kernel.linear Mode.wrap =
      lookupK [0, 1] 2 1 (1/2 : ℚ) 0 Kernel.linear Mode.wrap :=
  ⟨by norm_num,
    claim_C7_amended [0, 1] 2 1 (1/2) 0 Kernel.linear Mode.wrap (by norm_num)⟩

/-- C1 counterexample: on a table with `rows = 1`, `columns = 0`, the
single-point lookup (linear kernel, `Wrap` policy, inputs `0, 0`) does
not return a nil-like result: it reaches `idx % 0` inside `fetch_wrap`,
which is undefined behaviour, because the `columns == 0` guard exists
only in `ruby_fetch_oob`, not in `outer_linear`/`outer_cubic`. -/
theorem claim_C1_counterexample :
    lookupK [] 1 0 0 0 Kernel.linear Mode.wrap = CResult.crash := by
  norm_num [lookupK, outer_linear, frowOf, normNumber, fmod1, ctrunc, cMod,
    fetch_oob, fetch_wrap, readRow, CResult.bind, Int.tmod_one]

/-- C1 (amended): the `columns == 0` nil guard lives in the boundary
fetch entry point `ruby_fetch_oob`, which returns `nil` for every index
and policy without touching the table; the single-point lookup itself
has no such guard, and on a `columns == 0` table with the `Wrap` policy
it reaches a modulo by zero (undefined behaviour) for every kernel and
every `(number, phase)`. -/
theorem claim_C1_amended (idx : ℤ) (mode : Mode) (number phase : ℚ)
    (k : Kernel) :
    ruby_fetch_oob [] idx mode = CResult.ok none ∧
    lookupK [] 1 0 number phase k Mode.wrap = CResult.crash := by
  constructor
  · simp [ruby_fetch_oob]
  · cases k <;>
      norm_num [lookupK, outer_linear, outer_cubic, frowOf, cMod,
        fetch_oob, fetch_wrap, readRow, CResult.bind, Int.tmod_one]

lemma lookupList_ok (table : List ℚ) (rows columns : ℕ) (k : Kernel)
    (mode : Mode) :
    ∀ (ns ps out : List ℚ),
      lookupList table rows columns k mode ns ps = .ok out →
      out.length = ps.length ∧
      ∀ i, i < ps.length →
        lookupK table rows columns (ns.getD i 0) (ps.getD i 0) k mode =
          .ok (out.getD i 0) := by
  intro ns
  induction ns with
  | nil =>
    intro ps out h
    cases ps with
    | nil =>
      simp only [lookupList, CResult.ok.injEq] at h
      subst h
      exact ⟨rfl, fun i hi => absurd hi (Nat.not_lt_zero i)⟩
    | cons p ps => simp [lookupList] at h
  | cons n ns ih =>
    intro ps out h
    cases ps with
    | nil => simp [lookupList] at h
    | cons p ps =>
      simp only [lookupList] at h
      cases hv : lookupK table rows columns n p k mode with
      | err => rw [hv] at h; cases h
      | crash => rw [hv] at h; cases h
      | ok v =>
        rw [hv] at h
        cases hr : lookupList table rows columns k mode ns ps with
        | err => rw [hr] at h; cases h
        | crash => rw [hr] at h; cases h
        | ok rest =>
          rw [hr] at h
          simp only [CResult.ok.injEq] at h
          subst h
          obtain ⟨hlen, helem⟩ := ih ps rest hr
          refine ⟨by simp [hlen], ?_⟩
          intro i hi
          cases i with
          | zero => simpa using hv
          | succ j =>
            simp only [List.getD_cons_succ]
            exact helem j (by simpa using hi)

/-- C3: whenever the batch lookup completes normally, its output has
the length of `phases` and each element equals the single-point lookup
applied independently to the corresponding `(numbers[i], phases[i])`
pair; in this pure embedding the `numbers` input is read-only by
construction. -/
theorem claim_C3 (table : List ℚ) (rows columns : ℕ)
    (numbers phases out : List ℚ) (k : Kernel) (mode : Mode)
    (h : wavetable_lookup table rows columns numbers phases k mode = .ok out) :
    out.length = phases.length ∧
    ∀ i, i < phases.length →
      lookupK table rows columns (numbers.getD i 0) (phases.getD i 0) k mode =
        .ok (out.getD i 0) := by
  unfold wavetable_lookup at h
  split at h
  · exact lookupList_ok table rows columns k mode numbers phases out h
  · cases h

/-- C3 witness: concrete batch of length 1 on the table `[[0],[1]]`. -/
theorem claim_C3_witness :
    wavetable_lookup [0, 1] 2 1 [0] [0] Kernel.linear Mode.wrap = .ok [0] ∧
    (([0] : List ℚ).length = ([0] : List ℚ).length ∧
      ∀ i, i < ([0] : List ℚ).length →
        lookupK [0, 1] 2 1 (([0] : List ℚ).getD i 0) (([0] : List ℚ).getD i 0)
            Kernel.linear Mode.wrap =
          .ok ((([0] : List ℚ)).getD i 0)) := by
  have hbatch : wavetable_lookup [0, 1] 2 1 [0] [0] Kernel.linear Mode.wrap =
      .ok [0] := by
    norm_num [wavetable_lookup, lookupList, lookupK, outer_linear, frowOf,
      normNumber, fmod1, ctrunc, cMod, fetch_oob, fetch_wrap, readRow,
      CResult.bind, Int.tmod_self, Int.tmod_one, Int.tmod_eq_of_lt]
  exact ⟨hbatch,
    claim_C3 [0, 1] 2 1 [0] [0] [0] Kernel.linear Mode.wrap hbatch⟩

/-- C8: a batch call whose `numbers` and `phases` sequences have
different lengths fails with an error; the length check precedes the
loop, so in this embedding no output is produced and no element of
`phases` is looked up or overwritten. -/
theorem claim_C8 (table : List ℚ) (rows columns : ℕ)
    (numbers phases : List ℚ) (k : Kernel) (mode : Mode)
    (h : numbers.length ≠ phases.length) :
    wavetable_lookup table rows columns numbers phases k mode =
      CResult.err := by
  unfold wavetable_lookup
  rw [if_neg h]

/-- C8 witness: `numbers` of length 5 against `phases` of length 4. -/
theorem claim_C8_witness :
    ([0, 0, 0, 0, 0] : List ℚ).length ≠ ([0, 0, 0, 0] : List ℚ).length ∧
    wavetable_lookup [1] 1 1 [0, 0, 0, 0, 0] [0, 0, 0, 0]
        Kernel.linear Mode.wrap = CResult.err :=
  ⟨by decide,
    claim_C8 [1] 1 1 [0, 0, 0, 0, 0] [0, 0, 0, 0] Kernel.linear Mode.wrap
      (by decide)⟩

end FastWavetable
